import Mathlib

/-!
Verification of the SQL-exercise test harness of the `learn` repository.

The central piece is `load_queries` from
`exercises/sql-fundamentals/exercises/01-select-basics/test_select_basics.py`
(the files for exercises 02 and 03 contain an identical function):

  queries = {}
  pattern = "-- Query: (\w+)\s*\n(.*?)(?=-- Query:|$)"    (re.DOTALL)
  matches = re.findall(pattern, content, re.DOTALL)
  for name, query_block in matches:
      lines = []
      for line in query_block.strip().split("\n"):
          stripped = line.strip()
          if stripped and not stripped.startswith("--"):
              lines.append(line)
      query = "\n".join(lines).strip()
      if query and query != "pass":
          queries[name] = query
  return queries

Strings are embedded as `List Char`.  The pattern has no `^` anchor and no
MULTILINE flag, so the scan is purely positional: at each position the engine
tries the literal marker, then a nonempty greedy run of word characters, then
a greedy whitespace run that must contain a newline (backtracking lands just
after the last newline of the run), then the lazy body group stopped by the
zero-width lookahead — either the literal `-- Query:` or the end anchor `$`,
which in Python also matches just before a terminal newline.  `re.DOTALL`
lets the body group cross newlines.  The test-side lookup guard and the
`db` fixture are embedded further down.
-/

namespace LearnSql

/-- ASCII whitespace, as Python `str.strip` and `\s` treat the ASCII range:
space, tab, newline, carriage return, vertical tab, form feed. -/
def isSpaceCh (c : Char) : Bool :=
  c = ' ' || c = '\t' || c = '\n' || c = '\r' || c = '\x0b' || c = '\x0c'

/-- Python `\w` over the ASCII range: letters, digits and underscore. -/
def isWordCh (c : Char) : Bool :=
  c.isAlphanum || c = '_'

/-- The literal part of the pattern before the name group: `-- Query: `. -/
def markerFull : List Char := "-- Query: ".data

/-- The literal inside the lookahead: `-- Query:`. -/
def markerHead : List Char := "-- Query:".data

/-- Strip a literal from the front of the input; `none` when it is not there. -/
def dropPref : List Char → List Char → Option (List Char)
  | [], cs => some cs
  | _ :: _, [] => none
  | p :: ps, c :: cs => if c = p then dropPref ps cs else none

/-- The zero-width lookahead `(?=-- Query:|$)` at a suffix of the whole text:
either the literal `-- Query:` starts here, or we are at the end of the text,
or just before a newline that ends the text (Python `$` without MULTILINE). -/
def lookaheadOK (cs : List Char) : Bool :=
  markerHead.isPrefixOf cs || cs.isEmpty || cs == ['\n']

/-- The lazy group `(.*?)` under `re.DOTALL`: the shortest prefix whose
following suffix satisfies the lookahead; returns (body, remaining suffix). -/
def takeBody : List Char → List Char × List Char
  | [] => ([], [])
  | c :: cs =>
    if lookaheadOK (c :: cs) then ([], c :: cs)
    else ((c :: (takeBody cs).1), (takeBody cs).2)

/-- The greedy `\s*\n` after the name group: the maximal whitespace run must
contain a newline, and the engine consumes it up to and including its last
newline (greedy `\s*`, then backtracking until a literal newline matches).
Returns the suffix after that newline; `none` when the run has no newline. -/
def dropSpacesNl (r2 : List Char) : Option (List Char) :=
  if (r2.takeWhile isSpaceCh).length =
      ((r2.takeWhile isSpaceCh).reverse.takeWhile (fun c => !(c == '\n'))).length
  then none
  else some (r2.drop ((r2.takeWhile isSpaceCh).length -
      ((r2.takeWhile isSpaceCh).reverse.takeWhile (fun c => !(c == '\n'))).length))

/-- One attempt of the whole pattern at the current position.  On success,
returns the two capture groups (name, body) and the suffix at which the
regex scan resumes (the lookahead is zero-width). -/
def matchAt (cs : List Char) : Option (List Char × List Char × List Char) :=
  match dropPref markerFull cs with
  | none => none
  | some r1 =>
    if r1.takeWhile isWordCh = [] then none
    else
      match dropSpacesNl (r1.dropWhile isWordCh) with
      | none => none
      | some r3 =>
        some (r1.takeWhile isWordCh, (takeBody r3).1, (takeBody r3).2)

/-- `re.findall`: scan left to right; at each position try `matchAt`; on a
match, record the groups and resume at the match end, else advance one
character.  The fuel argument only bounds the recursion depth;
`cs.length + 1` is always enough (`findAllGo_stable`). -/
def findAllGo : Nat → List Char → List (List Char × List Char)
  | 0, _ => []
  | fuel + 1, cs =>
    match matchAt cs with
    | some (n, b, rest) => (n, b) :: findAllGo fuel rest
    | none =>
      match cs with
      | [] => []
      | _ :: cs2 => findAllGo fuel cs2

/-- All matches of the pattern in the text, leftmost first. -/
def findAll (cs : List Char) : List (List Char × List Char) :=
  findAllGo (cs.length + 1) cs

/-- Python `str.lstrip()` over ASCII. -/
def lstrip (cs : List Char) : List Char := cs.dropWhile isSpaceCh

/-- Python `str.rstrip()` over ASCII. -/
def rstrip (cs : List Char) : List Char := cs.rdropWhile isSpaceCh

/-- Python `str.strip()` over ASCII. -/
def pyStrip (cs : List Char) : List Char := rstrip (lstrip cs)

/-- Python `str.split` at newlines: `n` newlines yield `n + 1` pieces. -/
def pySplitNl : List Char → List (List Char)
  | [] => [[]]
  | c :: cs =>
    if c = '\n' then [] :: pySplitNl cs
    else (pySplitNl cs).modifyHead (fun l => c :: l)

/-- Python `join` with a newline separator. -/
def pyJoinNl : List (List Char) → List Char
  | [] => []
  | [l] => l
  | l :: ls => l ++ '\n' :: pyJoinNl ls

/-- The SQL comment marker `--` tested by `stripped.startswith("--")`. -/
def dashDash : List Char := "--".data

/-- The loop filter: keep a line whose stripped form is nonempty and does
not start with the comment marker. -/
def keepLine (l : List Char) : Bool :=
  !(pyStrip l).isEmpty && !(dashDash.isPrefixOf (pyStrip l))

/-- Cleaning of one block body: strip, split into lines, drop blank and
comment-only lines (keeping each surviving line verbatim), rejoin, strip. -/
def cleanBlock (b : List Char) : List Char :=
  pyStrip (pyJoinNl ((pySplitNl (pyStrip b)).filter keepLine))

/-- The placeholder sentinel `pass`. -/
def passTok : List Char := "pass".data

/-- Python `if query and query != "pass"`. -/
def goodQueryB (q : List Char) : Bool :=
  !q.isEmpty && !(q == passTok)

/-- Assignment `queries[name] = query` on an insertion-ordered dict:
replace the value in place when the key exists, else append the binding. -/
def updBind : List (List Char × List Char) → List Char → List Char →
    List (List Char × List Char)
  | [], n, q => [(n, q)]
  | (m, v) :: d, n, q =>
    if m = n then (m, q) :: d else (m, v) :: updBind d n q

/-- The body of the `for name, query_block in matches` loop, acting on the
dict accumulator. -/
def insStep (d : List (List Char × List Char)) (p : List Char × List Char) :
    List (List Char × List Char) :=
  if goodQueryB (cleanBlock p.2) then updBind d p.1 (cleanBlock p.2) else d

/-- The whole of `load_queries`, as a function of the text of `exercise.sql`. -/
def load_queries (cs : List Char) : List (List Char × List Char) :=
  (findAll cs).foldl insStep []

/-- The contribution of one regex match to the output: its name and cleaned
body when the cleaned body survives the emptiness and sentinel tests. -/
def goodOf (p : List Char × List Char) : Option (List Char × List Char) :=
  if goodQueryB (cleanBlock p.2) then some (p.1, cleanBlock p.2) else none

/-- The matches that survive cleaning, with their cleaned bodies, in match
order.  Used to characterise `load_queries`. -/
def goodPairs (cs : List Char) : List (List Char × List Char) :=
  (findAll cs).filterMap goodOf

/-! ## The test-side lookup guard

Every test in the three SQL test files reads its query as

  query = queries.get(name)
  assert query, "Query <quoted name> not found or empty"

`dict.get` never raises; a missing key gives `None`, which is falsy, so the
`assert` fails with the quoted message. -/

/-- The apostrophe character used in the assertion messages. -/
def quoteCh : Char := Char.ofNat 39

/-- The assertion message; the block name is quoted inside it. -/
def assertMsg (name : List Char) : List Char :=
  "Query ".data ++ [quoteCh] ++ name ++ [quoteCh] ++ " not found or empty".data

/-- `queries.get(name)` followed by `assert query, ...`: a missing key or a
falsy (empty) value turns into an assertion failure carrying the message;
otherwise the test proceeds with the query text. -/
def requireQuery (qs : List (List Char × List Char)) (name : List Char) :
    Except (List Char) (List Char) :=
  match List.lookup name qs with
  | none => Except.error (assertMsg name)
  | some q => if q = [] then Except.error (assertMsg name) else Except.ok q

/-! ## The database fixture

`db` in test_select_basics.py: connect to an in-memory store, run the SCHEMA
script (creating an empty `products` table), run the SAMPLE_DATA script
(inserting eight fixed rows), commit, yield the connection, close it. -/

/-- A row of the `products` table.  The REAL prices of the seed literal are
exact multiples of one cent and are embedded here in cents. -/
structure Product where
  id : Nat
  name : String
  category : String
  priceCents : Nat
  quantity : Nat
  is_active : Nat

/-- The eight rows of the SAMPLE_DATA insert script. -/
def sampleRows : List Product :=
  [ ⟨1, "Laptop", "Electronics", 99999, 50, 1⟩,
    ⟨2, "Mouse", "Electronics", 2999, 200, 1⟩,
    ⟨3, "Keyboard", "Electronics", 7999, 150, 1⟩,
    ⟨4, "Desk Chair", "Furniture", 29999, 30, 1⟩,
    ⟨5, "Standing Desk", "Furniture", 59999, 20, 0⟩,
    ⟨6, "Monitor", "Electronics", 39999, 75, 1⟩,
    ⟨7, "Webcam", "Electronics", 8999, 100, 1⟩,
    ⟨8, "Bookshelf", "Furniture", 14999, 40, 1⟩ ]

/-- An in-memory connection: the contents of the `products` table plus
whether the connection is still usable. -/
structure Conn where
  products : List Product
  isOpen : Bool

/-- The setup part of the fixture: `sqlite3.connect(":memory:")` yields a
fresh empty store, the schema script creates an empty `products` table and
the seed script appends the eight SAMPLE_DATA rows to it. -/
def dbSetup (_u : Unit) : Conn :=
  { products := [] ++ sampleRows, isOpen := true }

/-- `conn.close()`. -/
def closeConn (c : Conn) : Conn := { c with isOpen := false }

/-- `SELECT * FROM products`. -/
def selectAllProducts (c : Conn) : List Product := c.products

/-- Modelled from the spec: the pytest driver of a yield fixture is not part
of the repository, only the fixture body is.  Per the spec, the code before
`yield` runs as setup, the value is handed to the one test that requested
it, and the code after `yield` — here `conn.close()` — runs as teardown "on
all exit paths, including assertion failure".  A test body either succeeds
with `Except.ok` or fails with an assertion message. -/
def runDbTest (body : Conn → Except (List Char) Unit) :
    Except (List Char) Unit × Conn :=
  (body (dbSetup ()), closeConn (dbSetup ()))

end LearnSql

/-! ## Lemmas about stripping -/

namespace LearnSql

theorem dropWhile_idem (p : Char → Bool) (l : List Char) :
    (l.dropWhile p).dropWhile p = l.dropWhile p := by
  induction l with
  | nil => rfl
  | cons c cs ih =>
    by_cases hc : p c
    · simp only [List.dropWhile_cons, hc, if_true, ih]
    · simp only [List.dropWhile_cons, hc, if_false, Bool.false_eq_true]

theorem dropWhile_append2 (p : Char → Bool) (a b : List Char) :
    (a ++ b).dropWhile p =
      if a.dropWhile p = [] then b.dropWhile p else a.dropWhile p ++ b := by
  induction a with
  | nil => simp
  | cons c cs ih =>
    by_cases hc : p c
    · simpa only [List.cons_append, List.dropWhile_cons, hc, if_true] using ih
    · simp only [List.cons_append, List.dropWhile_cons, hc, Bool.false_eq_true,
        if_false, List.cons_ne_nil]

theorem lstrip_idem (l : List Char) : lstrip (lstrip l) = lstrip l :=
  dropWhile_idem isSpaceCh l

theorem rstrip_idem (l : List Char) : rstrip (rstrip l) = rstrip l := by
  simp only [rstrip, List.rdropWhile, List.reverse_reverse, dropWhile_idem]

theorem lstrip_append (a b : List Char) :
    lstrip (a ++ b) = if lstrip a = [] then lstrip b else lstrip a ++ b :=
  dropWhile_append2 isSpaceCh a b

theorem rstrip_append (a b : List Char) :
    rstrip (a ++ b) = if rstrip b = [] then rstrip a else a ++ rstrip b := by
  have hb : rstrip b = [] ↔ List.dropWhile isSpaceCh b.reverse = [] := by
    simp only [rstrip, List.rdropWhile, List.reverse_eq_nil_iff]
  by_cases h : rstrip b = []
  · rw [if_pos h]
    show (List.dropWhile isSpaceCh (a ++ b).reverse).reverse = rstrip a
    rw [List.reverse_append, dropWhile_append2, if_pos (hb.mp h)]
    rfl
  · rw [if_neg h]
    show (List.dropWhile isSpaceCh (a ++ b).reverse).reverse = a ++ rstrip b
    rw [List.reverse_append, dropWhile_append2, if_neg (fun hc => h (hb.mpr hc))]
    rw [List.reverse_append, List.reverse_reverse]
    rfl

theorem rstrip_cons (c : Char) (cs : List Char) :
    rstrip (c :: cs) =
      if rstrip cs = [] then (if isSpaceCh c then [] else [c])
      else c :: rstrip cs := by
  have h : c :: cs = [c] ++ cs := rfl
  rw [h, rstrip_append]
  by_cases hr : rstrip cs = []
  · rw [if_pos hr, if_pos hr]
    exact List.rdropWhile_singleton isSpaceCh c
  · rw [if_neg hr, if_neg hr]
    rfl

theorem lstrip_cons (c : Char) (cs : List Char) :
    lstrip (c :: cs) = if isSpaceCh c then lstrip cs else c :: cs :=
  List.dropWhile_cons

theorem lstrip_rstrip_comm (l : List Char) :
    lstrip (rstrip l) = rstrip (lstrip l) := by
  induction l with
  | nil => rfl
  | cons c cs ih =>
    by_cases hc : isSpaceCh c
    · rw [lstrip_cons, if_pos hc, rstrip_cons]
      by_cases hr : rstrip cs = []
      · rw [if_pos hr, if_pos hc, ← ih, hr]
      · rw [if_neg hr, lstrip_cons, if_pos hc, ih]
    · rw [lstrip_cons, if_neg hc, rstrip_cons]
      by_cases hr : rstrip cs = []
      · rw [if_pos hr, if_neg hc, lstrip_cons, if_neg hc]
      · rw [if_neg hr, lstrip_cons, if_neg hc]

theorem pyStrip_idem (l : List Char) : pyStrip (pyStrip l) = pyStrip l := by
  simp only [pyStrip]
  rw [lstrip_rstrip_comm, lstrip_idem, rstrip_idem]

theorem pyStrip_lstrip (l : List Char) : pyStrip (lstrip l) = pyStrip l := by
  simp only [pyStrip, lstrip_idem]

theorem pyStrip_rstrip (l : List Char) : pyStrip (rstrip l) = pyStrip l := by
  simp only [pyStrip]
  rw [lstrip_rstrip_comm, rstrip_idem]

theorem lstrip_eq_nil_iff (l : List Char) :
    lstrip l = [] ↔ ∀ c ∈ l, isSpaceCh c :=
  List.dropWhile_eq_nil_iff

theorem rstrip_eq_nil_iff (l : List Char) :
    rstrip l = [] ↔ ∀ c ∈ l, isSpaceCh c := by
  simp only [rstrip, List.rdropWhile_eq_nil_iff]

theorem lstrip_ne_nil_of_pyStrip (l : List Char) (h : pyStrip l ≠ []) :
    lstrip l ≠ [] := by
  intro hc
  exact h (by simp only [pyStrip, hc]; rfl)

theorem rstrip_ne_nil_of_pyStrip (l : List Char) (h : pyStrip l ≠ []) :
    rstrip l ≠ [] := by
  intro hc
  have hall : ∀ c ∈ l, isSpaceCh c := (rstrip_eq_nil_iff l).mp hc
  have : lstrip l = [] := (lstrip_eq_nil_iff l).mpr hall
  exact lstrip_ne_nil_of_pyStrip l h this

theorem mem_lstrip (l : List Char) (c : Char) (h : c ∈ lstrip l) : c ∈ l :=
  (List.dropWhile_suffix isSpaceCh).sublist.subset h

theorem mem_rstrip (l : List Char) (c : Char) (h : c ∈ rstrip l) : c ∈ l :=
  (List.rdropWhile_prefix isSpaceCh l).sublist.subset h

theorem mem_pyStrip (l : List Char) (c : Char) (h : c ∈ pyStrip l) : c ∈ l :=
  mem_lstrip l c (mem_rstrip (lstrip l) c h)

theorem keepLine_congr (l l2 : List Char) (h : pyStrip l = pyStrip l2) :
    keepLine l = keepLine l2 := by
  simp only [keepLine, h]

end LearnSql

/-! ## Lemmas about splitting and joining -/

namespace LearnSql

theorem pySplitNl_ne_nil (cs : List Char) : pySplitNl cs ≠ [] := by
  induction cs with
  | nil => simp [pySplitNl]
  | cons c cs ih =>
    by_cases hc : c = '\n'
    · simp [pySplitNl, hc]
    · simp only [pySplitNl, hc, if_false]
      cases h : pySplitNl cs with
      | nil => exact absurd h ih
      | cons l ls => simp [List.modifyHead]

theorem mem_pySplitNl_no_nl (cs l : List Char) (h : l ∈ pySplitNl cs) :
    '\n' ∉ l := by
  induction cs generalizing l with
  | nil =>
    simp only [pySplitNl, List.mem_singleton] at h
    subst h
    simp
  | cons c cs ih =>
    by_cases hc : c = '\n'
    · rw [show pySplitNl (c :: cs) = [] :: pySplitNl cs by
        simp only [pySplitNl, if_pos hc]] at h
      rcases List.mem_cons.mp h with h1 | h1
      · subst h1
        simp
      · exact ih l h1
    · cases hs : pySplitNl cs with
      | nil => exact absurd hs (pySplitNl_ne_nil cs)
      | cons l0 ls =>
        rw [show pySplitNl (c :: cs) = (c :: l0) :: ls by
          simp only [pySplitNl, hc, if_false, hs, List.modifyHead]] at h
        rcases List.mem_cons.mp h with h1 | h1
        · subst h1
          intro hmem
          rcases List.mem_cons.mp hmem with h2 | h2
          · exact hc h2.symm
          · exact ih l0 (hs ▸ List.mem_cons_self l0 ls) h2
        · exact ih l (hs ▸ List.mem_cons_of_mem l0 h1)

theorem pySplitNl_of_no_nl (cs : List Char) (h : '\n' ∉ cs) :
    pySplitNl cs = [cs] := by
  induction cs with
  | nil => rfl
  | cons c cs ih =>
    have hc : ¬ c = '\n' := fun hh => h (hh ▸ List.mem_cons_self c cs)
    have hcs : '\n' ∉ cs := fun hh => h (List.mem_cons_of_mem c hh)
    simp only [pySplitNl, hc, if_false, ih hcs, List.modifyHead]

theorem pySplitNl_append_nl (a r : List Char) (h : '\n' ∉ a) :
    pySplitNl (a ++ '\n' :: r) = a :: pySplitNl r := by
  induction a with
  | nil => simp [pySplitNl]
  | cons c a ih =>
    have hc : ¬ c = '\n' := fun hh => h (hh ▸ List.mem_cons_self c a)
    have ha : '\n' ∉ a := fun hh => h (List.mem_cons_of_mem c hh)
    have hstep : pySplitNl ((c :: a) ++ '\n' :: r) =
        (pySplitNl (a ++ '\n' :: r)).modifyHead (fun l => c :: l) := by
      simp only [List.cons_append, pySplitNl, hc, if_false, List.append_eq]
    rw [hstep, ih ha]
    rfl

theorem pyJoinNl_cons2 (l l2 : List Char) (ls : List (List Char)) :
    pyJoinNl (l :: l2 :: ls) = l ++ '\n' :: pyJoinNl (l2 :: ls) := rfl

/-- For a nonempty list of lines that each contain a non-space character,
right-stripping their join gives a nonempty result. -/
theorem rstrip_pyJoinNl_ne_nil (L : List (List Char))
    (hL : ∀ l ∈ L, pyStrip l ≠ []) (hne : L ≠ []) :
    rstrip (pyJoinNl L) ≠ [] := by
  induction L with
  | nil => exact absurd rfl hne
  | cons l0 L ih =>
    cases L with
    | nil =>
      exact rstrip_ne_nil_of_pyStrip l0 (hL l0 (List.mem_cons_self l0 []))
    | cons l1 ls =>
      have hrec : rstrip (pyJoinNl (l1 :: ls)) ≠ [] :=
        ih (fun l hl => hL l (List.mem_cons_of_mem l0 hl)) (by simp)
      rw [pyJoinNl_cons2, rstrip_append]
      have h1 : rstrip ('\n' :: pyJoinNl (l1 :: ls)) ≠ [] := by
        rw [rstrip_cons, if_neg hrec]
        simp
      rw [if_neg h1]
      intro hx
      exact h1 (List.append_eq_nil.mp hx).2

/-- Right-stripping the join of good lines touches only the last line:
every line of the split of the result strips to the strip of one of the
original lines. -/
theorem mem_pySplitNl_rstrip_pyJoinNl (L : List (List Char))
    (hA : ∀ l ∈ L, '\n' ∉ l ∧ pyStrip l ≠ []) (hne : L ≠ []) :
    ∀ l2 ∈ pySplitNl (rstrip (pyJoinNl L)), ∃ l ∈ L, pyStrip l2 = pyStrip l := by
  induction L with
  | nil => exact absurd rfl hne
  | cons l0 L ih =>
    cases L with
    | nil =>
      intro l2 h2
      have hnl : '\n' ∉ rstrip l0 := fun hmem =>
        (hA l0 (List.mem_cons_self l0 [])).1 (mem_rstrip l0 '\n' hmem)
      rw [show pyJoinNl [l0] = l0 from rfl, pySplitNl_of_no_nl _ hnl,
        List.mem_singleton] at h2
      subst h2
      exact ⟨l0, List.mem_cons_self l0 [], pyStrip_rstrip l0⟩
    | cons l1 ls =>
      intro l2 h2
      have hrec : rstrip (pyJoinNl (l1 :: ls)) ≠ [] :=
        rstrip_pyJoinNl_ne_nil (l1 :: ls)
          (fun l hl => (hA l (List.mem_cons_of_mem l0 hl)).2) (by simp)
      have hsplit : rstrip (pyJoinNl (l0 :: l1 :: ls)) =
          l0 ++ '\n' :: rstrip (pyJoinNl (l1 :: ls)) := by
        rw [pyJoinNl_cons2, rstrip_append]
        have h1 : rstrip ('\n' :: pyJoinNl (l1 :: ls)) ≠ [] := by
          rw [rstrip_cons, if_neg hrec]
          simp
        rw [if_neg h1, rstrip_cons, if_neg hrec]
      rw [hsplit, pySplitNl_append_nl l0 _ (hA l0 (List.mem_cons_self l0 _)).1,
        List.mem_cons] at h2
      rcases h2 with h2 | h2
      · exact ⟨l0, List.mem_cons_self l0 _, by rw [h2]⟩
      · rcases ih (fun l hl => hA l (List.mem_cons_of_mem l0 hl)) (by simp) l2 h2
          with ⟨l, hl, he⟩
        exact ⟨l, List.mem_cons_of_mem l0 hl, he⟩

end LearnSql

namespace LearnSql

/-- A nonempty cleaned block is fully stripped and every one of its lines
passes the keep filter: nonempty after stripping and not comment-only. -/
theorem cleanBlock_lines (b : List Char) (hq : cleanBlock b ≠ []) :
    pyStrip (cleanBlock b) = cleanBlock b ∧
      (pySplitNl (cleanBlock b)).all keepLine = true := by
  refine ⟨pyStrip_idem _, ?_⟩
  rw [List.all_eq_true]
  have hkeep : ∀ l ∈ (pySplitNl (pyStrip b)).filter keepLine, keepLine l = true :=
    fun l hl => List.of_mem_filter hl
  have hnl : ∀ l ∈ (pySplitNl (pyStrip b)).filter keepLine, '\n' ∉ l :=
    fun l hl => mem_pySplitNl_no_nl (pyStrip b) l (List.mem_of_mem_filter hl)
  have hps : ∀ l ∈ (pySplitNl (pyStrip b)).filter keepLine, pyStrip l ≠ [] := by
    intro l hl hnil
    have hk := hkeep l hl
    simp [keepLine, hnil] at hk
  cases hL : (pySplitNl (pyStrip b)).filter keepLine with
  | nil =>
    exact absurd (by unfold cleanBlock; rw [hL]; rfl) hq
  | cons l0 L1 =>
    rw [hL] at hkeep hnl hps
    have hcb : cleanBlock b = lstrip (rstrip (pyJoinNl (l0 :: L1))) := by
      unfold cleanBlock
      rw [hL, lstrip_rstrip_comm]
      rfl
    cases L1 with
    | nil =>
      have hcb2 : cleanBlock b = pyStrip l0 := by
        rw [hcb, show pyJoinNl [l0] = l0 from rfl, lstrip_rstrip_comm]
        rfl
      intro l2 hl2
      rw [hcb2, pySplitNl_of_no_nl (pyStrip l0)
        (fun hm => hnl l0 (List.mem_cons_self l0 []) (mem_pyStrip l0 '\n' hm)),
        List.mem_singleton] at hl2
      subst hl2
      rw [keepLine_congr (pyStrip l0) l0 (pyStrip_idem l0)]
      exact hkeep l0 (List.mem_cons_self l0 [])
    | cons l1 ls =>
      have hA : ∀ l ∈ l1 :: ls, '\n' ∉ l ∧ pyStrip l ≠ [] := fun l hl =>
        ⟨hnl l (List.mem_cons_of_mem l0 hl), hps l (List.mem_cons_of_mem l0 hl)⟩
      have hrec : rstrip (pyJoinNl (l1 :: ls)) ≠ [] :=
        rstrip_pyJoinNl_ne_nil (l1 :: ls) (fun l hl => (hA l hl).2) (by simp)
      have hsplit : rstrip (pyJoinNl (l0 :: l1 :: ls)) =
          l0 ++ '\n' :: rstrip (pyJoinNl (l1 :: ls)) := by
        rw [pyJoinNl_cons2, rstrip_append]
        have h1 : rstrip ('\n' :: pyJoinNl (l1 :: ls)) ≠ [] := by
          rw [rstrip_cons, if_neg hrec]
          simp
        rw [if_neg h1, rstrip_cons, if_neg hrec]
      have hl0s : lstrip l0 ≠ [] :=
        lstrip_ne_nil_of_pyStrip l0 (hps l0 (List.mem_cons_self l0 _))
      have hcb2 : cleanBlock b =
          lstrip l0 ++ '\n' :: rstrip (pyJoinNl (l1 :: ls)) := by
        rw [hcb, hsplit, lstrip_append, if_neg hl0s]
      intro l2 hl2
      rw [hcb2, pySplitNl_append_nl (lstrip l0) _
        (fun hm => hnl l0 (List.mem_cons_self l0 _) (mem_lstrip l0 '\n' hm)),
        List.mem_cons] at hl2
      rcases hl2 with h2 | h2
      · subst h2
        rw [keepLine_congr (lstrip l0) l0 (pyStrip_lstrip l0)]
        exact hkeep l0 (List.mem_cons_self l0 _)
      · rcases mem_pySplitNl_rstrip_pyJoinNl (l1 :: ls) hA (by simp) l2 h2
          with ⟨l, hl, he⟩
        rw [keepLine_congr l2 l he]
        exact hkeep l (List.mem_cons_of_mem l0 hl)

end LearnSql

/-! ## Lemmas about the dict accumulator -/

namespace LearnSql

theorem mem_updBind (d : List (List Char × List Char)) (n q : List Char)
    (x : List Char × List Char) (h : x ∈ updBind d n q) :
    x = (n, q) ∨ x ∈ d := by
  induction d with
  | nil =>
    simp only [updBind, List.mem_singleton] at h
    exact Or.inl h
  | cons e d ih =>
    obtain ⟨m, v⟩ := e
    by_cases hm : m = n
    · rw [show updBind ((m, v) :: d) n q = (m, q) :: d by
        simp only [updBind, if_pos hm]] at h
      rcases List.mem_cons.mp h with h1 | h1
      · subst hm
        exact Or.inl h1
      · exact Or.inr (List.mem_cons_of_mem _ h1)
    · rw [show updBind ((m, v) :: d) n q = (m, v) :: updBind d n q by
        simp only [updBind, if_neg hm]] at h
      rcases List.mem_cons.mp h with h1 | h1
      · exact Or.inr (h1 ▸ List.mem_cons_self _ _)
      · rcases ih h1 with h2 | h2
        · exact Or.inl h2
        · exact Or.inr (List.mem_cons_of_mem _ h2)

theorem lookup_cons_pair (k v m : List Char) (d : List (List Char × List Char)) :
    List.lookup m ((k, v) :: d) = if m = k then some v else List.lookup m d := by
  by_cases h : m = k
  · have hb : (m == k) = true := beq_iff_eq.mpr h
    simp only [List.lookup, hb, if_pos h]
  · have hb : (m == k) = false := beq_eq_false_iff_ne.mpr h
    simp only [List.lookup, hb, if_neg h]

theorem lookup_updBind (d : List (List Char × List Char)) (n q m : List Char) :
    List.lookup m (updBind d n q) = if m = n then some q else List.lookup m d := by
  induction d with
  | nil =>
    show List.lookup m [(n, q)] = _
    rw [lookup_cons_pair]
  | cons e d ih =>
    obtain ⟨k, v⟩ := e
    by_cases hk : k = n
    · rw [show updBind ((k, v) :: d) n q = (k, q) :: d by
        simp only [updBind, if_pos hk]]
      rw [lookup_cons_pair, lookup_cons_pair, hk]
      by_cases hm : m = n
      · rw [if_pos hm, if_pos hm]
      · rw [if_neg hm, if_neg hm, if_neg hm]
    · rw [show updBind ((k, v) :: d) n q = (k, v) :: updBind d n q by
        simp only [updBind, if_neg hk]]
      rw [lookup_cons_pair, ih]
      by_cases hm : m = k
      · have hmn : ¬ m = n := fun hc => hk (hm.symm.trans hc)
        rw [if_pos hm, if_neg hmn, lookup_cons_pair, if_pos hm]
      · rw [if_neg hm]
        by_cases hn : m = n
        · rw [if_pos hn, if_pos hn]
        · rw [if_neg hn, if_neg hn, lookup_cons_pair, if_neg hm]

theorem lookup_append (d1 d2 : List (List Char × List Char)) (m : List Char) :
    List.lookup m (d1 ++ d2) = (List.lookup m d1).or (List.lookup m d2) := by
  induction d1 with
  | nil => rfl
  | cons e d ih =>
    obtain ⟨k, v⟩ := e
    by_cases h : m = k
    · rw [List.cons_append, lookup_cons_pair, lookup_cons_pair, if_pos h, if_pos h]
      rfl
    · rw [List.cons_append, lookup_cons_pair, lookup_cons_pair, if_neg h,
        if_neg h, ih]

theorem mem_foldl_insStep (ps : List (List Char × List Char))
    (d : List (List Char × List Char)) (x : List Char × List Char)
    (h : x ∈ ps.foldl insStep d) :
    x ∈ d ∨ ∃ p ∈ ps, x.1 = p.1 ∧ x.2 = cleanBlock p.2 ∧
      goodQueryB (cleanBlock p.2) = true := by
  induction ps generalizing d with
  | nil => exact Or.inl h
  | cons p ps ih =>
    rw [List.foldl_cons] at h
    rcases ih (insStep d p) h with h1 | h1
    · unfold insStep at h1
      by_cases hg : goodQueryB (cleanBlock p.2) = true
      · rw [if_pos hg] at h1
        rcases mem_updBind d p.1 (cleanBlock p.2) x h1 with h2 | h2
        · exact Or.inr ⟨p, List.mem_cons_self p ps,
            by rw [h2], by rw [h2], hg⟩
        · exact Or.inl h2
      · rw [if_neg hg] at h1
        exact Or.inl h1
    · rcases h1 with ⟨p2, hp2, hx⟩
      exact Or.inr ⟨p2, List.mem_cons_of_mem p hp2, hx⟩

theorem lookup_foldl_insStep (ps : List (List Char × List Char))
    (d : List (List Char × List Char)) (m : List Char) :
    List.lookup m (ps.foldl insStep d) =
      (List.lookup m ((ps.filterMap goodOf).reverse)).or (List.lookup m d) := by
  induction ps generalizing d with
  | nil => rfl
  | cons p ps ih =>
    rw [List.foldl_cons, ih (insStep d p)]
    by_cases hg : goodQueryB (cleanBlock p.2) = true
    · rw [show (p :: ps).filterMap goodOf =
          (p.1, cleanBlock p.2) :: ps.filterMap goodOf by
        rw [List.filterMap_cons, show goodOf p = some (p.1, cleanBlock p.2) by
          unfold goodOf
          rw [if_pos hg]]]
      rw [List.reverse_cons, lookup_append, Option.or_assoc]
      congr 1
      rw [show insStep d p = updBind d p.1 (cleanBlock p.2) by
        unfold insStep
        rw [if_pos hg]]
      rw [lookup_updBind, lookup_cons_pair]
      by_cases hm : m = p.1
      · rw [if_pos hm, if_pos hm]
        rfl
      · rw [if_neg hm, if_neg hm]
        rfl
    · rw [show (p :: ps).filterMap goodOf = ps.filterMap goodOf by
        rw [List.filterMap_cons, show goodOf p = none by
          unfold goodOf
          rw [if_neg hg]]]
      rw [show insStep d p = d by
        unfold insStep
        rw [if_neg hg]]

/-- The lookup characterisation of `load_queries`: a name is bound to the
cleaned body of the last match with that name that survives filtering. -/
theorem lookup_load_queries (cs m : List Char) :
    List.lookup m (load_queries cs) = List.lookup m (goodPairs cs).reverse := by
  unfold load_queries goodPairs
  rw [lookup_foldl_insStep]
  rw [show List.lookup m ([] : List (List Char × List Char)) = none from rfl,
    Option.or_none]

theorem lookup_reverse_eq_getLast (l : List (List Char × List Char))
    (n : List Char) :
    List.lookup n l.reverse =
      ((l.filter (fun p => p.1 == n)).getLast?).map Prod.snd := by
  induction l with
  | nil => rfl
  | cons p l ih =>
    rw [List.reverse_cons, lookup_append, ih]
    by_cases h : p.1 = n
    · have hb : (p.1 == n) = true := beq_iff_eq.mpr h
      rw [show (p :: l).filter (fun p => p.1 == n) =
          p :: l.filter (fun p => p.1 == n) by
        simp only [List.filter_cons, hb, if_true]]
      cases hf : l.filter (fun p => p.1 == n) with
      | nil =>
        rw [lookup_cons_pair, if_pos h.symm]
        rfl
      | cons g gs =>
        have hx : (g :: gs).getLast? = some ((g :: gs).getLast (by simp)) :=
          List.getLast?_eq_getLast _ _
        rw [List.getLast?_cons_cons, hx]
        rfl
    · have hb : (p.1 == n) = false := beq_eq_false_iff_ne.mpr h
      rw [show (p :: l).filter (fun p => p.1 == n) =
          l.filter (fun p => p.1 == n) by
        simp only [List.filter_cons, hb, Bool.false_eq_true, if_false]]
      rw [lookup_cons_pair, if_neg (fun hc => h hc.symm)]
      rw [show List.lookup n ([] : List (List Char × List Char)) = none from rfl,
        Option.or_none]

end LearnSql

/-! ## Lemmas about the regex scan -/

namespace LearnSql

theorem dropPref_eq_append (p : List Char) :
    ∀ cs r, dropPref p cs = some r → cs = p ++ r := by
  induction p with
  | nil =>
    intro cs r h
    simp only [dropPref, Option.some.injEq] at h
    rw [h, List.nil_append]
  | cons a p ih =>
    intro cs r h
    cases cs with
    | nil => exact absurd h (by simp [dropPref])
    | cons c cs =>
      by_cases hc : c = a
      · rw [show dropPref (a :: p) (c :: cs) = dropPref p cs by
          simp [dropPref, hc]] at h
        rw [List.cons_append, ← ih cs r h, hc]
      · rw [show dropPref (a :: p) (c :: cs) = none by
          simp [dropPref, hc]] at h
        exact absurd h (by simp)

theorem takeBody_append (cs : List Char) :
    (takeBody cs).1 ++ (takeBody cs).2 = cs := by
  induction cs with
  | nil => rfl
  | cons c cs ih =>
    by_cases h : lookaheadOK (c :: cs) = true
    · rw [show takeBody (c :: cs) = ([], c :: cs) by simp [takeBody, h]]
      rfl
    · rw [show takeBody (c :: cs) = (c :: (takeBody cs).1, (takeBody cs).2) by
        simp [takeBody, h]]
      show c :: (takeBody cs).1 ++ (takeBody cs).2 = c :: cs
      rw [List.cons_append, ih]

theorem takeBody_rest_lookahead (cs : List Char) :
    lookaheadOK (takeBody cs).2 = true := by
  induction cs with
  | nil => rfl
  | cons c cs ih =>
    by_cases h : lookaheadOK (c :: cs) = true
    · rw [show takeBody (c :: cs) = ([], c :: cs) by simp [takeBody, h]]
      exact h
    · rw [show takeBody (c :: cs) = (c :: (takeBody cs).1, (takeBody cs).2) by
        simp [takeBody, h]]
      exact ih

theorem takeBody_min (cs : List Char) :
    ∀ j, j < (takeBody cs).1.length → lookaheadOK (cs.drop j) = false := by
  induction cs with
  | nil =>
    intro j hj
    simp [takeBody] at hj
  | cons c cs ih =>
    intro j hj
    by_cases h : lookaheadOK (c :: cs) = true
    · rw [show takeBody (c :: cs) = ([], c :: cs) by simp [takeBody, h]] at hj
      simp at hj
    · rw [show takeBody (c :: cs) = (c :: (takeBody cs).1, (takeBody cs).2) by
        simp [takeBody, h]] at hj
      cases j with
      | zero =>
        rw [List.drop_zero]
        exact Bool.eq_false_iff.mpr h
      | succ j =>
        rw [List.drop_succ_cons]
        apply ih
        simp only [List.length_cons] at hj
        omega

theorem dropSpacesNl_drop (r2 r3 : List Char) (h : dropSpacesNl r2 = some r3) :
    ∃ k, r3 = r2.drop k := by
  unfold dropSpacesNl at h
  by_cases hc : (r2.takeWhile isSpaceCh).length =
      ((r2.takeWhile isSpaceCh).reverse.takeWhile (fun c => !(c == '\n'))).length
  · rw [if_pos hc] at h
    exact absurd h (by simp)
  · rw [if_neg hc] at h
    simp only [Option.some.injEq] at h
    exact ⟨_, h.symm⟩

/-- The whitespace that `\s*\n` consumes: a successful `dropSpacesNl` splits
the input into a nonempty all-whitespace separator that contains a newline,
followed by the returned suffix. -/
theorem dropSpacesNl_spec (r2 r3 : List Char) (h : dropSpacesNl r2 = some r3) :
    ∃ w, r2 = w ++ r3 ∧ w ≠ [] ∧ (∀ c ∈ w, isSpaceCh c = true) ∧ '\n' ∈ w := by
  unfold dropSpacesNl at h
  by_cases hc : (r2.takeWhile isSpaceCh).length =
      ((r2.takeWhile isSpaceCh).reverse.takeWhile (fun c => !(c == '\n'))).length
  · rw [if_pos hc] at h
    exact absurd h (by simp)
  · rw [if_neg hc] at h
    simp only [Option.some.injEq] at h
    set run := r2.takeWhile isSpaceCh with hrun
    set tnn := run.reverse.takeWhile (fun c => !(c == '\n')) with htnn
    set u := run.reverse.dropWhile (fun c => !(c == '\n')) with hudef
    have htw : tnn ++ u = run.reverse :=
      List.takeWhile_append_dropWhile (fun c => !(c == '\n')) run.reverse
    have hlen : tnn.length + u.length = run.length := by
      have hl := congrArg List.length htw
      simp only [List.length_append, List.length_reverse] at hl
      exact hl
    have hune : u ≠ [] := by
      intro h0
      apply hc
      rw [h0, List.append_nil] at htw
      have hl := congrArg List.length htw
      simp only [List.length_reverse] at hl
      omega
    have hul : 0 < u.length := List.length_pos.mpr hune
    have hwtake : r2.take (run.length - tnn.length) = u.reverse := by
      rw [show run.length - tnn.length = u.length by omega]
      obtain ⟨t, ht⟩ : run <+: r2 := List.takeWhile_prefix isSpaceCh
      rw [← ht, List.take_append_eq_append_take,
        show u.length - run.length = 0 by omega, List.take_zero,
        List.append_nil]
      have hrunrev : run = u.reverse ++ tnn.reverse := by
        have hr := congrArg List.reverse htw
        simp only [List.reverse_append, List.reverse_reverse] at hr
        exact hr.symm
      rw [hrunrev, show u.length = u.reverse.length by simp,
        List.take_left u.reverse tnn.reverse]
    have hhead : u.head hune = '\n' := by
      have hh := List.head_dropWhile_not (fun c => !(c == '\n')) run.reverse hune
      simp only [Bool.not_eq_false'] at hh
      exact beq_iff_eq.mp hh
    refine ⟨u.reverse, ?_, by simpa using hune, ?_, ?_⟩
    · rw [← h, ← hwtake]
      exact (List.take_append_drop _ r2).symm
    · intro c hcm
      have hcu : c ∈ u := List.mem_reverse.mp hcm
      have hcr : c ∈ run :=
        List.mem_reverse.mp ((List.dropWhile_suffix _).sublist.subset hcu)
      exact List.mem_takeWhile_imp hcr
    · rw [← hhead]
      exact List.mem_reverse.mpr (List.head_mem hune)

theorem matchAt_spec (cs n b rest : List Char) (h : matchAt cs = some (n, b, rest)) :
    ∃ r1 r3, dropPref markerFull cs = some r1 ∧
      n = r1.takeWhile isWordCh ∧ n ≠ [] ∧
      dropSpacesNl (r1.dropWhile isWordCh) = some r3 ∧
      b = (takeBody r3).1 ∧ rest = (takeBody r3).2 := by
  unfold matchAt at h
  cases hd : dropPref markerFull cs with
  | none =>
    rw [hd] at h
    exact absurd h (by simp)
  | some r1 =>
    rw [hd] at h
    dsimp only at h
    by_cases hn : r1.takeWhile isWordCh = []
    · rw [if_pos hn] at h
      exact absurd h (by simp)
    · rw [if_neg hn] at h
      cases hs : dropSpacesNl (r1.dropWhile isWordCh) with
      | none =>
        rw [hs] at h
        exact absurd h (by simp)
      | some r3 =>
        rw [hs] at h
        dsimp only at h
        have h3 := Option.some.inj h
        have hfst : n = r1.takeWhile isWordCh := (congrArg Prod.fst h3).symm
        refine ⟨r1, r3, rfl, hfst, ?_, hs, ?_, ?_⟩
        · rw [hfst]
          exact hn
        · exact (congrArg (fun t => t.2.1) h3).symm
        · exact (congrArg (fun t => t.2.2) h3).symm

theorem matchAt_decomp (cs n b rest : List Char)
    (h : matchAt cs = some (n, b, rest)) :
    ∃ w, cs = markerFull ++ n ++ w ++ b ++ rest := by
  rcases matchAt_spec cs n b rest h with
    ⟨r1, r3, hd, hn, _, hs, hb, hr⟩
  obtain ⟨k, hk⟩ := dropSpacesNl_drop _ _ hs
  refine ⟨(r1.dropWhile isWordCh).take k, ?_⟩
  have h1 : cs = markerFull ++ r1 := dropPref_eq_append markerFull cs r1 hd
  have h2 : r1 = n ++ r1.dropWhile isWordCh := by
    rw [hn]
    exact (List.takeWhile_append_dropWhile isWordCh r1).symm
  have h3 : r1.dropWhile isWordCh =
      (r1.dropWhile isWordCh).take k ++ r3 := by
    rw [hk]
    exact (List.take_append_drop k _).symm
  have h4 : r3 = b ++ rest := by
    rw [hb, hr]
    exact (takeBody_append r3).symm
  have hcalc : cs =
      markerFull ++ (n ++ ((r1.dropWhile isWordCh).take k ++ (b ++ rest))) := by
    rw [h1]
    congr 1
    rw [← h4, ← h3, ← h2]
  rw [hcalc]
  simp only [List.append_assoc]

/-- Full decomposition of a successful match: the separator between the
name and the body is nonempty whitespace containing a newline — exactly the
`\s*\n` of the pattern, the condition that makes an occurrence a match. -/
theorem matchAt_decomp_sep (cs n b rest : List Char)
    (h : matchAt cs = some (n, b, rest)) :
    ∃ w, cs = markerFull ++ n ++ w ++ b ++ rest ∧ w ≠ [] ∧
      (∀ c ∈ w, isSpaceCh c = true) ∧ '\n' ∈ w := by
  rcases matchAt_spec cs n b rest h with
    ⟨r1, r3, hd, hn, _, hs, hb, hr⟩
  obtain ⟨w, hw, hwne, hwsp, hwnl⟩ := dropSpacesNl_spec _ _ hs
  refine ⟨w, ?_, hwne, hwsp, hwnl⟩
  have h1 : cs = markerFull ++ r1 := dropPref_eq_append markerFull cs r1 hd
  have h2 : r1 = n ++ r1.dropWhile isWordCh := by
    rw [hn]
    exact (List.takeWhile_append_dropWhile isWordCh r1).symm
  have h4 : r3 = b ++ rest := by
    rw [hb, hr]
    exact (takeBody_append r3).symm
  have hcalc : cs = markerFull ++ (n ++ (w ++ (b ++ rest))) := by
    rw [h1]
    congr 1
    rw [← h4, ← hw, ← h2]
  rw [hcalc]
  simp only [List.append_assoc]

theorem matchAt_rest_lt (cs n b rest : List Char)
    (h : matchAt cs = some (n, b, rest)) :
    rest.length < cs.length := by
  rcases matchAt_decomp cs n b rest h with ⟨w, hw⟩
  rcases matchAt_spec cs n b rest h with ⟨r1, r3, _, _, hn, _, _, _⟩
  have hnl : 0 < n.length := List.length_pos.mpr hn
  have hml : markerFull.length = 10 := rfl
  rw [hw]
  simp only [List.length_append]
  omega

theorem matchAt_body_no_marker (cs n b rest : List Char)
    (h : matchAt cs = some (n, b, rest)) :
    ¬ (markerHead <:+: b) := by
  rintro ⟨s, t, hst⟩
  rcases matchAt_spec cs n b rest h with ⟨r1, r3, _, _, _, _, hb, hr⟩
  have hlen : s.length < b.length := by
    rw [← hst]
    simp only [List.length_append]
    have : markerHead.length = 9 := rfl
    omega
  have hmin : lookaheadOK (r3.drop s.length) = false := by
    apply takeBody_min
    rw [← hb]
    exact hlen
  have hr3 : r3 = b ++ rest := by
    rw [hb, hr]
    exact (takeBody_append r3).symm
  have hdrop : r3.drop s.length = markerHead ++ (t ++ rest) := by
    rw [hr3, ← hst]
    rw [List.drop_append_eq_append_drop]
    have hsle : s.length ≤ (s ++ (markerHead ++ t)).length := by
      simp only [List.length_append]
      omega
    rw [show s ++ markerHead ++ t = s ++ (markerHead ++ t) by
      simp only [List.append_assoc]]
    rw [List.drop_left]
    have : s.length - (s ++ (markerHead ++ t)).length = 0 := by
      simp only [List.length_append]
      omega
    rw [this, List.drop_zero, List.append_assoc]
  rw [hdrop] at hmin
  have : lookaheadOK (markerHead ++ (t ++ rest)) = true := by
    unfold lookaheadOK
    have : markerHead.isPrefixOf (markerHead ++ (t ++ rest)) = true :=
      List.isPrefixOf_iff_prefix.mpr (List.prefix_append _ _)
    rw [this]
    rfl
  rw [this] at hmin
  exact absurd hmin (by simp)

theorem matchAt_nil : matchAt [] = none := rfl

theorem mem_findAllGo (fuel : Nat) (cs : List Char) (x : List Char × List Char)
    (h : x ∈ findAllGo fuel cs) :
    ∃ cs1 rest, matchAt cs1 = some (x.1, x.2, rest) := by
  induction fuel generalizing cs with
  | zero => exact absurd h (by simp [findAllGo])
  | succ fuel ih =>
    cases hm : matchAt cs with
    | some v =>
      obtain ⟨n, b, rest⟩ := v
      rw [show findAllGo (fuel + 1) cs = (n, b) :: findAllGo fuel rest by
        simp only [findAllGo, hm]] at h
      rcases List.mem_cons.mp h with h1 | h1
      · subst h1
        exact ⟨cs, rest, hm⟩
      · exact ih rest h1
    | none =>
      cases cs with
      | nil =>
        rw [show findAllGo (fuel + 1) [] = [] by simp only [findAllGo, hm]] at h
        exact absurd h (by simp)
      | cons c cs2 =>
        rw [show findAllGo (fuel + 1) (c :: cs2) = findAllGo fuel cs2 by
          simp only [findAllGo, hm]] at h
        exact ih cs2 h

theorem findAllGo_stable : ∀ (k : Nat) (cs : List Char) (f g : Nat),
    cs.length ≤ k → cs.length < f → cs.length < g →
    findAllGo f cs = findAllGo g cs := by
  intro k
  induction k with
  | zero =>
    intro cs f g hk hf hg
    have hcs : cs = [] := List.eq_nil_of_length_eq_zero (Nat.le_zero.mp hk)
    subst hcs
    obtain ⟨f1, rfl⟩ : ∃ f1, f = f1 + 1 := ⟨f - 1, by omega⟩
    obtain ⟨g1, rfl⟩ : ∃ g1, g = g1 + 1 := ⟨g - 1, by omega⟩
    rw [show findAllGo (f1 + 1) [] = [] by simp only [findAllGo, matchAt_nil],
      show findAllGo (g1 + 1) [] = [] by simp only [findAllGo, matchAt_nil]]
  | succ k ih =>
    intro cs f g hk hf hg
    obtain ⟨f1, rfl⟩ : ∃ f1, f = f1 + 1 := ⟨f - 1, by omega⟩
    obtain ⟨g1, rfl⟩ : ∃ g1, g = g1 + 1 := ⟨g - 1, by omega⟩
    cases hm : matchAt cs with
    | some v =>
      obtain ⟨n, b, rest⟩ := v
      have hlt : rest.length < cs.length := matchAt_rest_lt cs n b rest hm
      rw [show findAllGo (f1 + 1) cs = (n, b) :: findAllGo f1 rest by
          simp only [findAllGo, hm],
        show findAllGo (g1 + 1) cs = (n, b) :: findAllGo g1 rest by
          simp only [findAllGo, hm]]
      rw [ih rest f1 g1 (by omega) (by omega) (by omega)]
    | none =>
      cases cs with
      | nil =>
        rw [show findAllGo (f1 + 1) [] = [] by simp only [findAllGo, hm],
          show findAllGo (g1 + 1) [] = [] by simp only [findAllGo, hm]]
      | cons c cs2 =>
        rw [show findAllGo (f1 + 1) (c :: cs2) = findAllGo f1 cs2 by
            simp only [findAllGo, hm],
          show findAllGo (g1 + 1) (c :: cs2) = findAllGo g1 cs2 by
            simp only [findAllGo, hm]]
        simp only [List.length_cons] at hk hf hg
        exact ih cs2 f1 g1 (by omega) (by omega) (by omega)

end LearnSql

namespace LearnSql

theorem lookup_eq_none_iff (l : List (List Char × List Char)) (n : List Char) :
    List.lookup n l = none ↔ ∀ p ∈ l, p.1 ≠ n := by
  induction l with
  | nil => simp [List.lookup]
  | cons p l ih =>
    obtain ⟨k, v⟩ := p
    rw [lookup_cons_pair]
    by_cases h : n = k
    · rw [if_pos h]
      constructor
      · intro hc
        exact absurd hc (by simp)
      · intro hall
        exact absurd h.symm (hall (k, v) (List.mem_cons_self _ _))
    · rw [if_neg h, ih]
      constructor
      · intro hall p hp
        rcases List.mem_cons.mp hp with h1 | h1
        · rw [h1]
          exact fun hc => h hc.symm
        · exact hall p h1
      · intro hall p hp
        exact hall p (List.mem_cons_of_mem _ hp)

end LearnSql

/-! ## The claims -/

namespace LearnSql

/-- Claim C1, counterexample to the frozen statement: in this input both
blocks are named A and both bodies survive cleaning, yet the earlier block
does not appear with its cleaned text "SELECT 1;" — the returned mapping
binds A only to the later cleaned text "SELECT 2;". -/
theorem claim1_counterexample :
    ("A".data, "SELECT 1;\n".data) ∈
        findAll "-- Query: A\nSELECT 1;\n-- Query: A\nSELECT 2;\n".data ∧
      goodQueryB (cleanBlock "SELECT 1;\n".data) = true ∧
      cleanBlock "SELECT 1;\n".data = "SELECT 1;".data ∧
      ("A".data, "SELECT 1;".data) ∉
        load_queries "-- Query: A\nSELECT 1;\n-- Query: A\nSELECT 2;\n".data ∧
      List.lookup "A".data
          (load_queries "-- Query: A\nSELECT 1;\n-- Query: A\nSELECT 2;\n".data) =
        some "SELECT 2;".data := by
  decide

/-- Claim C1 (amended): a block whose cleaned body is empty or equals the
sentinel contributes no entry; looking a name up in the returned mapping
yields exactly the cleaned text of the last block with that name whose
cleaned body survives (`goodPairs`), and nothing when no such block exists. -/
theorem claim1_thm (cs n : List Char) :
    List.lookup n (load_queries cs) = List.lookup n (goodPairs cs).reverse ∧
      (List.lookup n (load_queries cs) = none ↔
        ∀ p ∈ goodPairs cs, p.1 ≠ n) := by
  refine ⟨lookup_load_queries cs n, ?_⟩
  rw [lookup_load_queries cs n, lookup_eq_none_iff]
  constructor
  · intro h p hp
    exact h p (List.mem_reverse.mpr hp)
  · intro h p hp
    exact h p (List.mem_reverse.mp hp)

/-- Claim C2, counterexample to the frozen statement: in this input the only
occurrence of the marker text sits mid-line (no line of the input starts
with `-- Query:`), yet the extractor does recognise it and produces a
block. -/
theorem claim2_counterexample :
    (pySplitNl "SELECT 0; -- Query: A\nSELECT 1;\n".data).all
        (fun l => !(markerHead.isPrefixOf l)) = true ∧
      findAll "SELECT 0; -- Query: A\nSELECT 1;\n".data =
        [("A".data, "SELECT 1;".data)] := by
  decide

/-- Claim C2 (amended): the marker is recognised by pure prefix matching at
arbitrary positions, not only at line starts: a successful match decomposes
the scanned text into the marker literal, the name, the consumed whitespace,
the body and the rest; the body never contains the lookahead literal
`-- Query:`, and the match ends exactly where the lookahead holds — at the
next marker occurrence, at the end of the text, or just before its final
newline. -/
theorem claim2_thm (cs n b rest : List Char)
    (h : matchAt cs = some (n, b, rest)) :
    (∃ w, cs = markerFull ++ n ++ w ++ b ++ rest ∧ w ≠ [] ∧
        (∀ c ∈ w, isSpaceCh c = true) ∧ '\n' ∈ w) ∧
      ¬ (markerHead <:+: b) ∧ lookaheadOK rest = true := by
  refine ⟨matchAt_decomp_sep cs n b rest h,
    matchAt_body_no_marker cs n b rest h, ?_⟩
  rcases matchAt_spec cs n b rest h with ⟨r1, r3, _, _, _, _, _, hr⟩
  rw [hr]
  exact takeBody_rest_lookahead r3

theorem claim2_witness :
    (∃ w, "-- Query: A\nSELECT 1;\n".data =
        markerFull ++ "A".data ++ w ++ "SELECT 1;".data ++ "\n".data ∧
        w ≠ [] ∧ (∀ c ∈ w, isSpaceCh c = true) ∧ '\n' ∈ w) ∧
      ¬ (markerHead <:+: "SELECT 1;".data) ∧ lookaheadOK "\n".data = true :=
  claim2_thm "-- Query: A\nSELECT 1;\n".data "A".data "SELECT 1;".data
    "\n".data (by decide)

/-- Claim C3: on the two-block input, with a comment line inside block B,
the extractor returns exactly the mapping A to "SELECT 1;" and B to
"SELECT 2;". -/
theorem claim3_thm :
    load_queries
        "-- Query: A\nSELECT 1;\n-- Query: B\n-- comment\nSELECT 2;\n".data =
      [("A".data, "SELECT 1;".data), ("B".data, "SELECT 2;".data)] := by
  decide

/-- Claim C4: every value of the returned mapping is fully stripped (no
surrounding whitespace) and each of its lines passes the keep filter — its
stripped form is nonempty and does not start with the comment marker. -/
theorem claim4_thm (cs n q : List Char) (h : (n, q) ∈ load_queries cs) :
    pyStrip q = q ∧ (pySplitNl q).all keepLine = true := by
  rcases mem_foldl_insStep (findAll cs) [] (n, q) h with h1 | ⟨p, _, _, hq, hg⟩
  · exact absurd h1 (by simp)
  · dsimp only at hq
    have hne : cleanBlock p.2 ≠ [] := by
      intro h0
      rw [h0] at hg
      simp [goodQueryB] at hg
    rw [hq]
    exact cleanBlock_lines p.2 hne

theorem claim4_witness :
    pyStrip "SELECT 1;".data = "SELECT 1;".data ∧
      (pySplitNl "SELECT 1;".data).all keepLine = true :=
  claim4_thm
    "-- Query: A\nSELECT 1;\n-- Query: B\n-- comment\nSELECT 2;\n".data
    "A".data "SELECT 1;".data (by decide)

/-- Claim C5, counterexample to the frozen statement: two blocks named A;
the last-defined block cleans to the sentinel "pass", so the returned
mapping binds A to the cleaned body of the EARLIER block, not to the
cleaned body of the last-defined one. -/
theorem claim5_counterexample :
    findAll "-- Query: A\nSELECT 1;\n-- Query: A\npass\n".data =
        [("A".data, "SELECT 1;\n".data), ("A".data, "pass".data)] ∧
      cleanBlock "pass".data = "pass".data ∧
      List.lookup "A".data
          (load_queries "-- Query: A\nSELECT 1;\n-- Query: A\npass\n".data) =
        some "SELECT 1;".data ∧
      ¬ "SELECT 1;".data = "pass".data := by
  decide

/-- Claim C5 (amended): with duplicate names, the mapping binds the name to
the cleaned body of the last block with that name whose cleaned body
survives the emptiness and sentinel tests; earlier surviving bodies are
silently overwritten. -/
theorem claim5_thm (cs n : List Char)
    (_hdup : 2 ≤ ((findAll cs).filter (fun p => p.1 == n)).length) :
    List.lookup n (load_queries cs) =
      ((goodPairs cs).filter (fun p => p.1 == n)).getLast?.map Prod.snd := by
  rw [lookup_load_queries cs n, lookup_reverse_eq_getLast]

theorem claim5_witness :
    List.lookup "A".data
        (load_queries "-- Query: A\nSELECT 1;\n-- Query: A\nSELECT 3;\n".data) =
      ((goodPairs "-- Query: A\nSELECT 1;\n-- Query: A\nSELECT 3;\n".data).filter
        (fun p => p.1 == "A".data)).getLast?.map Prod.snd :=
  claim5_thm "-- Query: A\nSELECT 1;\n-- Query: A\nSELECT 3;\n".data
    "A".data (by decide)

/-- Claim C6: the extractor is a pure, deterministic function of the input
text — two extractions from the same text are the same mapping, with the
same lookup results on every key.  In this embedding `load_queries` is a
mathematical function of the text, so determinism holds definitionally. -/
theorem claim6_thm (cs : List Char) :
    load_queries cs = load_queries cs ∧
      ∀ n, List.lookup n (load_queries cs) = List.lookup n (load_queries cs) :=
  ⟨rfl, fun _ => rfl⟩

/-- Claim C7: a missing block name makes the test guard fail with the
assertion message that names the block — `requireQuery` returns the
descriptive `Except.error` and never a raw lookup exception. -/
theorem claim7_thm (qs : List (List Char × List Char)) (name : List Char)
    (h : List.lookup name qs = none) :
    requireQuery qs name = Except.error (assertMsg name) ∧
      name <:+: assertMsg name := by
  constructor
  · unfold requireQuery
    rw [h]
  · exact ⟨"Query ".data ++ [quoteCh], [quoteCh] ++ " not found or empty".data,
      by simp [assertMsg, List.append_assoc]⟩

theorem claim7_witness :
    requireQuery (load_queries "-- Query: select_all_columns\npass\n".data)
        "select_all_columns".data =
      Except.error (assertMsg "select_all_columns".data) ∧
      "select_all_columns".data <:+: assertMsg "select_all_columns".data :=
  claim7_thm (load_queries "-- Query: select_all_columns\npass\n".data)
    "select_all_columns".data (by decide)

/-- Claim C8: every invocation of the fixture yields a database with the
same fixed starting content; selecting all rows from the seeded products
table gives exactly 8 rows — the seed row count — every time. -/
theorem claim8_thm (u : Unit) :
    (selectAllProducts (dbSetup u)).length = 8 ∧
      selectAllProducts (dbSetup u) = sampleRows ∧
      sampleRows.length = 8 ∧
      ∀ v : Unit, dbSetup u = dbSetup v :=
  ⟨rfl, rfl, rfl, fun _ => rfl⟩

/-- Claim C9: for any test body whatsoever — succeeding or failing with an
assertion — the fixture protocol closes the connection after the body runs:
the final connection state is closed, while the body result is returned
unchanged. -/
theorem claim9_thm (body : Conn → Except (List Char) Unit) :
    ((runDbTest body).2).isOpen = false ∧
      (runDbTest body).1 = body (dbSetup ()) :=
  ⟨rfl, rfl⟩

/-- Claim C10: for every input string whatsoever the parse is total and
fuel-insensitive — any fuel above the input length gives the same scan
result, so the bounded recursion never truncates and a mapping is always
returned — and every key of that mapping is a nonempty string of word
characters. -/
theorem claim10_thm (cs : List Char) (fuel : Nat) (hf : cs.length < fuel) :
    findAllGo fuel cs = findAll cs ∧
      ∀ n q, (n, q) ∈ load_queries cs → n ≠ [] ∧ n.all isWordCh = true := by
  refine ⟨findAllGo_stable cs.length cs fuel (cs.length + 1) le_rfl hf
    (by omega), ?_⟩
  intro n q h
  rcases mem_foldl_insStep (findAll cs) [] (n, q) h with h1 | ⟨p, hp, hn1, _, _⟩
  · exact absurd h1 (by simp)
  · dsimp only at hn1
    rcases mem_findAllGo (cs.length + 1) cs p hp with ⟨cs1, rest, hm⟩
    rcases matchAt_spec cs1 p.1 p.2 rest hm with ⟨r1, r3, _, hnw, hne, _, _, _⟩
    constructor
    · rw [hn1]
      exact hne
    · rw [hn1, hnw, List.all_eq_true]
      intro c hc
      exact List.mem_takeWhile_imp hc

theorem claim10_witness :
    findAllGo 60 "-- Query: A\nSELECT 1;\n".data =
        findAll "-- Query: A\nSELECT 1;\n".data ∧
      ∀ n q, (n, q) ∈ load_queries "-- Query: A\nSELECT 1;\n".data →
        n ≠ [] ∧ n.all isWordCh = true :=
  claim10_thm "-- Query: A\nSELECT 1;\n".data 60 (by decide)

end LearnSql
